import Mathlib

/-!
# Verification of the mongo-perf analysis driver (`analysismgr.py`)

A shallow embedding of the definition dispatch core of `analysismgr.py`:
the loader `pull_definitions`, the dispatch loop of
`start_definition_processing` (modelled both as an executable scan/loop pair
and as a small-step machine covering the queue drain barrier), and the
definition upsert `ensure_definition`.

Raw records pulled from the document store are modelled by `Rec`; a field
that may be absent from the stored mapping is an `Option` (with `none` for a
missing key).  Dynamic Python failures are modelled by `PyErr`
(`KeyError` on a missing mapping key, `NameError` on a read of a
never-assigned local variable).
-/

namespace AnalysisMgr

/-- pipeline to be used for alerts (`ALERT_TASKS` in the source). -/
def ALERT_TASKS : List String :=
  ["pull data", "process alerts", "persist alerts", "prepare alerts", "show results"]

/-- pipeline to be used for reports (`REPORT_TASKS` in the source). -/
def REPORT_TASKS : List String :=
  ["process benchmarks", "pull results", "analyze results", "prepare report", "show results"]

/-- Name constant `ALERTS_COLLECTION` in the source. -/
def ALERTS_COLLECTION : String := "alertDefinition"

/-- Name constant `REPORTS_COLLECTION` in the source. -/
def REPORTS_COLLECTION : String := "reportDefinition"

/-- The unhandled Python exceptions the modelled code can raise:
`KeyError` from reading a missing dictionary key, `NameError` from reading a
local variable that was never assigned. -/
inductive PyErr where
  | keyError : PyErr
  | nameError : PyErr
deriving DecidableEq, Repr

/-- A raw definition record: the dictionary pulled from the document store
(plus the keys the driver itself writes into it: `type` is `rtype` here,
and `pipeline`).  Kind-specific keys that may be absent from the stored
mapping are `Option`-valued, `none` meaning the key is missing. -/
structure Rec where
  name : String
  rtype : String
  transform : Option String := none
  comparator : Option String := none
  epoch_type : Option String := none
  threads : Option String := none
  epoch_count : Option String := none
  homogeneity : Option String := none
  state : String := "not started"
  pipeline : List String := []
deriving DecidableEq, Repr

/-- Modelled from the spec: `AlertDefinition` / `ReportDefinition` live in
`jobsmgr`, which is not under src/.  Per the data model of the spec a Definition
carries an identity (name, kind), the fixed per-kind `pipeline`, the raw
parameters, the run `state`, and a stage position starting at 0. -/
structure Defn where
  name : String
  dtype : String
  pipeline : List String
  state : String
  params : Rec
  currentStageIndex : Nat
deriving DecidableEq, Repr

/-- One iteration body of the definition reconstruction in the dispatch loop
(lines 115–126 of `analysismgr.py`):

* `type == "alert"`: set `params["pipeline"] = ALERT_TASKS`, then construct
  `AlertDefinition(params["transform"], …, params["epoch_count"], **params)`;
  a missing required key raises `KeyError` before any object is built.
* `type == "report"`: set `params["pipeline"] = REPORT_TASKS`, then construct
  `ReportDefinition(params["homogeneity"], **params)`.
* any other `type`: neither branch assigns the local `definition`, so the
  subsequent `definition.state` read uses the previously constructed
  definition (`last`), or raises `NameError` when there is none.

The constructors themselves are modelled from the spec (`jobsmgr` is not
under src/): the built Definition takes name, kind, pipeline and state from
the record (`**params`) and starts at stage 0.  The function returns the
consulted definition together with the (possibly mutated) record. -/
def constructDef (params : Rec) (last : Option Defn) : Except PyErr (Defn × Rec) :=
  if params.rtype = "alert" then
    let params2 := { params with pipeline := ALERT_TASKS }
    match params2.transform, params2.comparator, params2.epoch_type,
          params2.threads, params2.epoch_count with
    | some _, some _, some _, some _, some _ =>
        .ok ({ name := params2.name, dtype := "alert", pipeline := params2.pipeline,
               state := params2.state, params := params2, currentStageIndex := 0 }, params2)
    | _, _, _, _, _ => .error .keyError
  else if params.rtype = "report" then
    let params2 := { params with pipeline := REPORT_TASKS }
    match params2.homogeneity with
    | some _ =>
        .ok ({ name := params2.name, dtype := "report", pipeline := params2.pipeline,
               state := params2.state, params := params2, currentStageIndex := 0 }, params2)
    | none => .error .keyError
  else
    match last with
    | some d => .ok (d, params)
    | none => .error .nameError

/-- A record on which `constructDef` succeeds on its own: its `type` is one
of the two handled kinds and every kind-specific required key is present. -/
def validRec (r : Rec) : Prop :=
  (r.rtype = "alert" ∧ r.transform.isSome ∧ r.comparator.isSome ∧
    r.epoch_type.isSome ∧ r.threads.isSome ∧ r.epoch_count.isSome) ∨
  (r.rtype = "report" ∧ r.homogeneity.isSome)

instance (r : Rec) : Decidable (validRec r) := by unfold validRec; infer_instance

/-- The document store: a collection name maps to its documents in cursor
order. -/
structure DB where
  find : String → List Rec

/-- Loader `pull_definitions` (lines 73–92): choose the collection for the two
known definition types (any other type leaves the local `collection`
unassigned, so the `DATABASE[collection]` read raises `NameError`), then
append every cursor document to the result after setting its `type` key. -/
def pull_definitions (db : DB) (definition_type : String) : Except PyErr (List Rec) :=
  match (if definition_type = "alert" then some ALERTS_COLLECTION
         else if definition_type = "report" then some REPORTS_COLLECTION
         else none) with
  | none => .error .nameError
  | some collection =>
      .ok ((db.find collection).foldl
        (fun defs params => defs ++ [{ params with rtype := definition_type }]) [])

/-- The Python call `list.remove(x)`: delete the first element equal to `x`.
(The source only calls it on an element known to be in the list.) -/
def pyRemove : List Rec → Rec → List Rec
  | [], _ => []
  | a :: l, b => if a = b then l else a :: pyRemove l b

/-- One pass of `for params in definitions_list:` (lines 114–136), with
the CPython list-iterator semantics made explicit: the iterator keeps a bare
index `it` into the mutating list, stopping once `it` reaches the current
length.  Each examined record is reconstructed by `constructDef`; when the
state of the consulted definition is `"not started"` the definition is enqueued
and `definitions_list.remove(params)` deletes the (pipeline-mutated) record,
so the element that slid into the removed slot is skipped by the `it+1`
read.  `fuel` only bounds the iteration count; `onePass` supplies enough for
the scan to finish (each step shortens `lst.length - it`).  Returns the
remaining list, the definitions enqueued by this pass in order, the last
consulted definition, and the records examined in order. -/
def goScan : Nat → Nat → List Rec → Option Defn → List Defn → List Rec →
    Except PyErr (List Rec × List Defn × Option Defn × List Rec)
  | 0, _, lst, last, enq, ex => .ok (lst, enq, last, ex)
  | fuel + 1, it, lst, last, enq, ex =>
    if h : it < lst.length then
      match constructDef lst[it] last with
      | .error e => .error e
      | .ok (d, params2) =>
        if d.state = "not started" then
          goScan fuel (it + 1) (pyRemove (lst.set it params2) params2)
            (some d) (enq ++ [d]) (ex ++ [lst[it]])
        else
          goScan fuel (it + 1) (lst.set it params2) (some d) enq (ex ++ [lst[it]])
    else .ok (lst, enq, last, ex)

/-- A single scan of the pending list, started the way each iteration of the
`while definitions_list:` loop starts it. -/
def onePass (lst : List Rec) (last : Option Defn) :
    Except PyErr (List Rec × List Defn × Option Defn × List Rec) :=
  goScan lst.length 0 lst last [] []

/-- The coordinator-visible state of the dispatch loop: the pending list
(`definitions_list`), the last assigned local `definition`, and the
definitions enqueued so far, in order of `put`. -/
structure LoopSt where
  pending : List Rec
  lastDef : Option Defn
  enq : List Defn
deriving DecidableEq, Repr

/-- Exactly `n` passes of the `while definitions_list:` loop (stopping early
once the pending list empties or a pass raises). -/
def loopState : Nat → LoopSt → Except PyErr LoopSt
  | 0, s => .ok s
  | n + 1, s =>
    if s.pending.isEmpty then .ok s
    else
      match onePass s.pending s.lastDef with
      | .error e => .error e
      | .ok (lst', newEnq, last', _) =>
          loopState n ⟨lst', last', s.enq ++ newEnq⟩

/-- The `while definitions_list:` loop as a fuelled runner: `some (.ok enq)`
when the pending list empties within `fuel` passes (returning all enqueued
definitions in order), `some (.error e)` when a pass raises, and `none` when
the loop is still running after `fuel` passes. -/
def runLoop : Nat → List Rec → Option Defn → List Defn →
    Option (Except PyErr (List Defn))
  | 0, lst, _, enq => if lst.isEmpty then some (.ok enq) else none
  | f + 1, lst, last, enq =>
    if lst.isEmpty then some (.ok enq)
    else
      match onePass lst last with
      | .error e => some (.error e)
      | .ok (lst', newEnq, last', _) => runLoop f lst' last' (enq ++ newEnq)

/-- The loop phase of `start_definition_processing` (lines 113–140) as a whole:
run the polling loop over a copy of the batch until it empties. -/
def start_definition_processing (fuel : Nat) (definitions : List Rec) :
    Option (Except PyErr (List Defn)) :=
  runLoop fuel definitions none []

/-- Modelled from the spec: the pymongo call
`update({"name": section}, params, upsert=True)` (line 201), run against a
collection that `ensure_indexes` gave a unique index on `name`, replaces the
single document whose `name` matches the key, or inserts the new document
when none matches. -/
def upsertDoc : List Rec → Rec → List Rec
  | [], params => [params]
  | d :: ds, params =>
      if d.name = params.name then params :: ds else d :: upsertDoc ds params

/-- The record `ensure_definition` builds for one config section
(lines 192–200): whatever field values the section carries, with
`params["name"] = section`. -/
def buildParams (sect : String) (fields : Rec) : Rec := { fields with name := sect }

/-- Upsert driver `ensure_definition` (lines 180–204): for every parsed section, upsert its
record into the collection keyed on the section name. The config-parser
ingestion is abstracted as the given list of (section, fields) pairs. -/
def ensure_definition (sections : List (String × Rec)) (coll : List Rec) : List Rec :=
  sections.foldl (fun c sf => upsertDoc c (buildParams sf.1 sf.2)) coll

/-- Observable events of the setup and loop of `start_definition_processing`:
starting a `Processor` thread (with the queue it is constructed over and its
`daemon` flag) and putting a definition on the processing queue. -/
inductive Ev where
  | spawn (queueId : Nat) (daemon : Bool)
  | put (d : Defn)
deriving DecidableEq, Repr

/-- The identity of the single `Queue()` that `start_definition_processing`
creates (line 99); every `Processor` is constructed over this one queue. -/
def mainQueue : Nat := 0

/-- The worker-launch loop (lines 104–108): one `Processor` per definition,
each over `definitions_processing_queue`, each with `daemon = True`, all
started before the dispatch loop runs. -/
def spawnPhase (definitions : List Rec) : List Ev :=
  (List.range definitions.length).map (fun _ => Ev.spawn mainQueue true)

/-- The event trace of one `start_definition_processing` call: first the
spawn events of the worker-launch loop, then the `put` events of the dispatch
loop (whatever definitions it enqueues, in order). -/
def dispatchTrace (definitions : List Rec) (puts : List Defn) : List Ev :=
  spawnPhase definitions ++ puts.map Ev.put

/-- Where control of `start_definition_processing` currently is:
inside the `while definitions_list:` loop, blocked on
`definitions_processing_queue.join()`, past the `join()` (about to return),
or aborted by an unhandled exception from the loop body. -/
inductive Phase where
  | looping
  | joining
  | returned
  | errored
deriving DecidableEq, Repr

/-- Modelled from the spec: the concurrent state of one
`start_definition_processing` call. The coordinator data (`pending`,
`lastDef`) is as in `LoopSt`; the shared queue and its drain barrier follow
the documented `Queue` semantics the spec relies on: `put` increments the
count of unfinished tasks, a Worker (`Processor`, from `jobsmgr`, not under
src/) takes an item and reports it processed (`task_done`), decrementing the
count, and `join()` returns only once the count is zero. `enqTotal` and
`procTotal` count enqueues and completed processings. -/
structure DState where
  pending : List Rec
  lastDef : Option Defn
  queue : List Defn
  unfinished : Nat
  enqTotal : Nat
  procTotal : Nat
  phase : Phase
deriving Repr

/-- The state at entry of the dispatch loop: the batch pending, nothing
enqueued, nothing processed, inside the loop. -/
def initState (batch : List Rec) : DState :=
  ⟨batch, none, [], 0, 0, 0, .looping⟩

/-- Small-step transitions of the dispatch call: one coordinator scan of the
pending list (lines 114–136), an unhandled exception from the scan, falling
out of the `while` once pending is empty (line 113), a Worker processing one
queued item, and `join()` returning once every enqueued item has been
reported processed (line 142). -/
inductive DStep : DState → DState → Prop where
  | scan (s : DState) (lst' : List Rec) (newEnq : List Defn) (last' : Option Defn)
      (ex : List Rec) :
      s.phase = .looping → s.pending ≠ [] →
      onePass s.pending s.lastDef = .ok (lst', newEnq, last', ex) →
      DStep s ⟨lst', last', s.queue ++ newEnq, s.unfinished + newEnq.length,
               s.enqTotal + newEnq.length, s.procTotal, .looping⟩
  | scanErr (s : DState) (e : PyErr) :
      s.phase = .looping → s.pending ≠ [] →
      onePass s.pending s.lastDef = .error e →
      DStep s ⟨s.pending, s.lastDef, s.queue, s.unfinished, s.enqTotal,
               s.procTotal, .errored⟩
  | exitLoop (s : DState) :
      s.phase = .looping → s.pending = [] →
      DStep s ⟨s.pending, s.lastDef, s.queue, s.unfinished, s.enqTotal,
               s.procTotal, .joining⟩
  | work (s : DState) (d : Defn) (rest : List Defn) :
      s.queue = d :: rest →
      DStep s ⟨s.pending, s.lastDef, rest, s.unfinished - 1, s.enqTotal,
               s.procTotal + 1, s.phase⟩
  | joinReturn (s : DState) :
      s.phase = .joining → s.unfinished = 0 →
      DStep s ⟨s.pending, s.lastDef, s.queue, s.unfinished, s.enqTotal,
               s.procTotal, .returned⟩

/-- States reachable in a `start_definition_processing` call on `batch`,
under any interleaving of coordinator and Worker steps. -/
inductive Reach (batch : List Rec) : DState → Prop where
  | start : Reach batch (initState batch)
  | next (s s' : DState) : Reach batch s → DStep s s' → Reach batch s'

/-- Invariant of the dispatch scan: pending names are distinct, pending
records are well-formed, the enqueued definitions carry distinct names, and
no enqueued definition shares a name with a still-pending record. -/
def ScanInv (lst : List Rec) (enq : List Defn) : Prop :=
  (lst.map Rec.name).Nodup ∧ (∀ r ∈ lst, validRec r) ∧
  (enq.map Defn.name).Nodup ∧ (∀ d ∈ enq, ∀ r ∈ lst, d.name ≠ r.name)

/-- The scan invariant for a whole loop state (the cumulative enqueue list). -/
def LInv (s : LoopSt) : Prop := ScanInv s.pending s.enq

/-- Invariant of the dispatch machine: the count of unfinished tasks equals
the queue length (each `put` adds one, each processed item removes one);
enqueues split into processed items and unfinished ones; past the loop the
pending list is empty; and past the drain barrier nothing is unfinished. -/
def MInv (s : DState) : Prop :=
  s.unfinished = s.queue.length ∧ s.enqTotal = s.procTotal + s.unfinished ∧
  ((s.phase = .joining ∨ s.phase = .returned) → s.pending = []) ∧
  (s.phase = .returned → s.unfinished = 0)

/-- Whether an event is a worker launch. -/
def isSpawn : Ev → Bool
  | .spawn _ _ => true
  | .put _ => false

/-- A well-formed alert record in state `"not started"`, for concrete runs. -/
def gRec : Rec :=
  { name := "g", rtype := "alert", transform := some "t", comparator := some "c",
    epoch_type := some "e", threads := some "1", epoch_count := some "2" }

/-- A second well-formed alert record, distinct from `gRec` only by name. -/
def g2Rec : Rec := { gRec with name := "g2" }

/-- A record whose `type` is neither `"alert"` nor `"report"`. -/
def badRec : Rec := { name := "b", rtype := "mystery" }

/-- A malformed alert record: the required key `transform` is missing. -/
def mRec : Rec := { name := "m", rtype := "alert" }

/-- A well-formed report record whose stored state is `"running"`. -/
def runRec : Rec :=
  { name := "r", rtype := "report", homogeneity := some "h", state := "running" }

/-- A well-formed report record whose stored state is `"completed"`. -/
def stuckRec : Rec :=
  { name := "s", rtype := "report", homogeneity := some "h", state := "completed" }

/-- The definition reconstructed from `gRec`. -/
def gDefn : Defn :=
  { name := "g", dtype := "alert", pipeline := ALERT_TASKS, state := "not started",
    params := { gRec with pipeline := ALERT_TASKS }, currentStageIndex := 0 }

/-- A store whose alert collection holds only the malformed record. -/
def mDB : DB := ⟨fun c => if c = ALERTS_COLLECTION then [mRec] else []⟩

/-- The final machine state of a one-record dispatch run on `[gRec]`. -/
def runDState : DState := ⟨[], some gDefn, [], 0, 1, 1, .returned⟩

/-- The document store after `main` ran `ensure_definition` with the given
sections against both definition collections (line 64 and line 68). -/
def mkStoreDB (sections : List (String × Rec)) (collA collR : List Rec) : DB :=
  ⟨fun c => if c = ALERTS_COLLECTION then ensure_definition sections collA
    else if c = REPORTS_COLLECTION then ensure_definition sections collR else []⟩

/-! ## List helpers -/

theorem pyRemove_subset {l : List Rec} {b x : Rec} (h : x ∈ pyRemove l b) : x ∈ l := by
  induction l with
  | nil => simp [pyRemove] at h
  | cons a t ih =>
    by_cases hab : a = b
    · rw [pyRemove, if_pos hab] at h
      exact List.mem_cons_of_mem _ h
    · rw [pyRemove, if_neg hab] at h
      rcases List.mem_cons.1 h with h | h
      · exact h ▸ List.mem_cons_self _ _
      · exact List.mem_cons_of_mem _ (ih h)

/-- Removal after the in-place mutation `definitions_list[it] = params2`:
when no two pending records share a name and the new record keeps the name of
the slot it replaces, removing it deletes exactly that slot. -/
theorem pyRemove_set (l : List Rec) (p : Rec) :
    ∀ (i : Nat) (h : i < l.length), ((l.map Rec.name).Nodup) → p.name = l[i].name →
      pyRemove (l.set i p) p = l.eraseIdx i := by
  induction l with
  | nil => intro i h; simp at h
  | cons a t ih =>
    intro i h hnd hn
    cases i with
    | zero => simp [List.set, pyRemove]
    | succ j =>
      have hj : j < t.length := by simpa using h
      have hnt : (t.map Rec.name).Nodup := (List.nodup_cons.1 hnd).2
      have ha : a.name ∉ t.map Rec.name := (List.nodup_cons.1 hnd).1
      have hap : a ≠ p := by
        intro he
        apply ha
        rw [he, hn]
        exact List.mem_map_of_mem Rec.name (List.getElem_mem hj)
      simp only [List.set, List.eraseIdx]
      rw [pyRemove, if_neg hap, ih j hj hnt (by simpa using hn)]

theorem names_set (l : List Rec) (p : Rec) :
    ∀ (i : Nat) (h : i < l.length), p.name = l[i].name →
      (l.set i p).map Rec.name = l.map Rec.name := by
  induction l with
  | nil => intro i h; simp at h
  | cons a t ih =>
    intro i h hn
    cases i with
    | zero =>
      simp only [List.getElem_cons_zero] at hn
      simp [List.set, hn]
    | succ j =>
      simp only [List.set, List.map_cons]
      rw [ih j (by simpa using h) (by simpa using hn)]

theorem names_eraseIdx (l : List Rec) (i : Nat) :
    (l.eraseIdx i).map Rec.name = (l.map Rec.name).eraseIdx i := by
  simp [List.eraseIdx_eq_take_drop_succ, List.map_take, List.map_drop]

theorem mem_set_of_mem_ne {l : List Rec} {r p : Rec} {i : Nat} (hi : i < l.length)
    (hr : r ∈ l) (hne : r ≠ l[i]) : r ∈ l.set i p := by
  obtain ⟨j, hj, hv⟩ := List.getElem_of_mem hr
  have hji : i ≠ j := by
    rintro rfl
    exact hne hv.symm
  have hjs : j < (l.set i p).length := by simpa using hj
  have : (l.set i p)[j] = l[j] := List.getElem_set_ne hji hjs
  rw [← hv, ← this]
  exact List.getElem_mem hjs

theorem mem_eraseIdx_of_mem_ne {l : List Rec} {r : Rec} {i : Nat} (hi : i < l.length)
    (hr : r ∈ l) (hne : r ≠ l[i]) : r ∈ l.eraseIdx i := by
  obtain ⟨j, hj, hv⟩ := List.getElem_of_mem hr
  refine List.mem_eraseIdx_iff_getElem.2 ⟨j, hj, ?_, hv⟩
  rintro rfl
  exact hne hv.symm

theorem getElem_not_mem_eraseIdx {L : List String} {i : Nat} (hnd : L.Nodup)
    (hi : i < L.length) : L[i] ∉ L.eraseIdx i := by
  intro hmem
  obtain ⟨j, hj, hji, hval⟩ := List.mem_eraseIdx_iff_getElem.1 hmem
  exact hji ((List.Nodup.getElem_inj_iff hnd).1 hval)

theorem drop_eraseIdx_sublist (L : List String) :
    ∀ i : Nat, ((L.eraseIdx i).drop (i + 1)).Sublist (L.drop (i + 1)) := by
  induction L with
  | nil => intro i; simp
  | cons a t ih =>
    intro i
    cases i with
    | zero => simpa using List.drop_sublist 1 t
    | succ j => simpa using ih j

/-! ## Reconstruction helpers -/

theorem constructDef_alert {r : Rec} (last : Option Defn) (ht : r.rtype = "alert")
    {t c e th ec : String} (h1 : r.transform = some t) (h2 : r.comparator = some c)
    (h3 : r.epoch_type = some e) (h4 : r.threads = some th)
    (h5 : r.epoch_count = some ec) :
    constructDef r last = .ok
      (⟨r.name, "alert", ALERT_TASKS, r.state, { r with pipeline := ALERT_TASKS }, 0⟩,
        { r with pipeline := ALERT_TASKS }) := by
  simp [constructDef, ht, h1, h2, h3, h4, h5]

theorem constructDef_report {r : Rec} (last : Option Defn) (ht : r.rtype = "report")
    {hg : String} (h1 : r.homogeneity = some hg) :
    constructDef r last = .ok
      (⟨r.name, "report", REPORT_TASKS, r.state, { r with pipeline := REPORT_TASKS }, 0⟩,
        { r with pipeline := REPORT_TASKS }) := by
  have hne : r.rtype ≠ "alert" := by rw [ht]; decide
  simp [constructDef, ht, hne, h1]

theorem constructDef_valid {r : Rec} (last : Option Defn) (hv : validRec r) :
    ∃ d p2, constructDef r last = .ok (d, p2) ∧ d.name = r.name ∧ d.state = r.state ∧
      p2.name = r.name ∧ p2.state = r.state ∧ validRec p2 := by
  rcases hv with ⟨ht, h1, h2, h3, h4, h5⟩ | ⟨ht, h1⟩
  · obtain ⟨t, h1⟩ := Option.isSome_iff_exists.1 h1
    obtain ⟨c, h2⟩ := Option.isSome_iff_exists.1 h2
    obtain ⟨e, h3⟩ := Option.isSome_iff_exists.1 h3
    obtain ⟨th, h4⟩ := Option.isSome_iff_exists.1 h4
    obtain ⟨ec, h5⟩ := Option.isSome_iff_exists.1 h5
    refine ⟨_, _, constructDef_alert last ht h1 h2 h3 h4 h5, rfl, rfl, rfl, rfl, ?_⟩
    exact Or.inl ⟨ht, by simp [h1], by simp [h2], by simp [h3], by simp [h4], by simp [h5]⟩
  · obtain ⟨hg, h1⟩ := Option.isSome_iff_exists.1 h1
    refine ⟨_, _, constructDef_report last ht h1, rfl, rfl, rfl, rfl, ?_⟩
    exact Or.inr ⟨ht, by simp [h1]⟩

/-! ## Unfolding lemmas for the scan and the loop -/

theorem goScan_zero (it : Nat) (lst : List Rec) (last : Option Defn) (enq : List Defn)
    (ex : List Rec) : goScan 0 it lst last enq ex = .ok (lst, enq, last, ex) := rfl

theorem goScan_succ_of_ge {it : Nat} {lst : List Rec} (fuel : Nat) (last : Option Defn)
    (enq : List Defn) (ex : List Rec) (hit : ¬ it < lst.length) :
    goScan (fuel + 1) it lst last enq ex = .ok (lst, enq, last, ex) := by
  rw [goScan, dif_neg hit]

theorem goScan_succ_of_lt {it : Nat} {lst : List Rec} {last : Option Defn} (fuel : Nat)
    (enq : List Defn) (ex : List Rec) (hit : it < lst.length) {d : Defn} {p2 : Rec}
    (hcd : constructDef lst[it] last = .ok (d, p2)) :
    goScan (fuel + 1) it lst last enq ex =
      if d.state = "not started" then
        goScan fuel (it + 1) (pyRemove (lst.set it p2) p2) (some d) (enq ++ [d])
          (ex ++ [lst[it]])
      else goScan fuel (it + 1) (lst.set it p2) (some d) enq (ex ++ [lst[it]]) := by
  rw [goScan, dif_pos hit, hcd]

theorem goScan_succ_of_err {it : Nat} {lst : List Rec} {last : Option Defn} (fuel : Nat)
    (enq : List Defn) (ex : List Rec) (hit : it < lst.length) {e : PyErr}
    (hcd : constructDef lst[it] last = .error e) :
    goScan (fuel + 1) it lst last enq ex = .error e := by
  rw [goScan, dif_pos hit, hcd]

theorem loopState_zero (s : LoopSt) : loopState 0 s = .ok s := rfl

theorem loopState_succ_nil (n : Nat) (s : LoopSt) (h : s.pending = []) :
    loopState (n + 1) s = .ok s := by
  rw [loopState, if_pos (List.isEmpty_iff.2 h)]

theorem loopState_succ_cons (n : Nat) (s : LoopSt) (h : s.pending ≠ [])
    {lst' : List Rec} {newEnq : List Defn} {last' : Option Defn} {ex : List Rec}
    (hop : onePass s.pending s.lastDef = .ok (lst', newEnq, last', ex)) :
    loopState (n + 1) s = loopState n ⟨lst', last', s.enq ++ newEnq⟩ := by
  rw [loopState, if_neg (by simp [List.isEmpty_iff, h]), hop]

theorem loopState_succ_err (n : Nat) (s : LoopSt) (h : s.pending ≠ []) {e : PyErr}
    (hop : onePass s.pending s.lastDef = .error e) :
    loopState (n + 1) s = .error e := by
  rw [loopState, if_neg (by simp [List.isEmpty_iff, h]), hop]

/-! ## The master lemma about one scan -/

/-- What one (partial) scan of the pending list guarantees, given the scan
invariant: the invariant is preserved; pending names only shrink, in order;
surviving records keep the name and state of a record that was pending;
enqueues only append; every newly enqueued definition was reconstructed from
a pending record in state `"not started"` and carries that state; a pending
record whose state is not `"not started"` survives the scan; a pending
record that does not survive was enqueued; and the records examined by the
scan are an in-order selection of the pending list from the start index on. -/
theorem goScan_main :
    ∀ (fuel it : Nat) (lst : List Rec) (last : Option Defn) (enq : List Defn)
      (ex : List Rec) (lst' : List Rec) (enq' : List Defn) (last' : Option Defn)
      (ex' : List Rec),
      goScan fuel it lst last enq ex = .ok (lst', enq', last', ex') →
      ScanInv lst enq →
      ScanInv lst' enq' ∧
      ((lst'.map Rec.name).Sublist (lst.map Rec.name)) ∧
      (∀ r' ∈ lst', ∃ r ∈ lst, r'.name = r.name ∧ r'.state = r.state) ∧
      (∃ newEnq, enq' = enq ++ newEnq) ∧
      (∀ d ∈ enq', d ∈ enq ∨
        (d.state = "not started" ∧ ∃ r ∈ lst, d.name = r.name ∧ r.state = "not started")) ∧
      (∀ r ∈ lst, r.state ≠ "not started" →
        ∃ r' ∈ lst', r'.name = r.name ∧ r'.state = r.state) ∧
      (∀ r ∈ lst, (∃ r' ∈ lst', r'.name = r.name) ∨ (∃ d ∈ enq', d.name = r.name)) ∧
      (∃ newEx, ex' = ex ++ newEx ∧
        ((newEx.map Rec.name).Sublist ((lst.drop it).map Rec.name))) := by
  intro fuel
  induction fuel with
  | zero =>
    intro it lst last enq ex lst' enq' last' ex' heq hinv
    rw [goScan_zero] at heq
    simp only [Except.ok.injEq, Prod.mk.injEq] at heq
    obtain ⟨rfl, rfl, rfl, rfl⟩ := heq
    refine ⟨hinv, List.Sublist.refl _, ?_, ⟨[], by simp⟩, ?_, ?_, ?_, ⟨[], by simp, by simp⟩⟩
    · exact fun r' hr' => ⟨r', hr', rfl, rfl⟩
    · exact fun d hd => Or.inl hd
    · exact fun r hr _ => ⟨r, hr, rfl, rfl⟩
    · exact fun r hr => Or.inl ⟨r, hr, rfl⟩
  | succ fuel ih =>
    intro it lst last enq ex lst' enq' last' ex' heq hinv
    by_cases hit : it < lst.length
    · obtain ⟨hnd, hval, hnde, hdisj⟩ := hinv
      have hr0 : lst[it] ∈ lst := List.getElem_mem hit
      obtain ⟨d, p2, hcd, hdn, hds, hpn, hps, hpv⟩ := constructDef_valid last (hval _ hr0)
      rw [goScan_succ_of_lt fuel enq ex hit hcd] at heq
      have hml : it < (lst.map Rec.name).length := by simpa using hit
      have hnmem : (lst.map Rec.name)[it] ∉ (lst.map Rec.name).eraseIdx it :=
        getElem_not_mem_eraseIdx hnd hml
      have hgetn : (lst.map Rec.name)[it] = lst[it].name := by
        simp
      by_cases hst : d.state = "not started"
      · -- enqueue-and-remove branch
        rw [if_pos hst] at heq
        rw [pyRemove_set lst p2 it hit hnd hpn] at heq
        have hsubE : (lst.eraseIdx it).Sublist lst := List.eraseIdx_sublist lst it
        have hnE : (lst.eraseIdx it).map Rec.name = (lst.map Rec.name).eraseIdx it :=
          names_eraseIdx lst it
        have hdnot : ∀ r ∈ lst.eraseIdx it, d.name ≠ r.name := by
          intro r hr hcon
          apply hnmem
          rw [hgetn, ← hdn, hcon, ← hnE]
          exact List.mem_map_of_mem Rec.name hr
        have hinv1 : ((lst.eraseIdx it).map Rec.name).Nodup := by
          rw [hnE]
          exact List.Nodup.sublist (List.eraseIdx_sublist _ it) hnd
        have hinv2 : ∀ r ∈ lst.eraseIdx it, validRec r :=
          fun r hr => hval r (hsubE.subset hr)
        have hdenq : d.name ∉ enq.map Defn.name := by
          intro hmem
          obtain ⟨d0, hd0, hd0n⟩ := List.mem_map.1 hmem
          exact hdisj d0 hd0 lst[it] hr0 (hd0n.trans hdn)
        have hinv3 : (((enq ++ [d]).map Defn.name)).Nodup := by
          rw [List.map_append]
          exact List.nodup_append.2 ⟨hnde, by simp, by
            intro a ha hb
            simp only [List.map_cons, List.map_nil, List.mem_cons,
              List.not_mem_nil, or_false] at hb
            exact hdenq (hb ▸ ha)⟩
        have hinv4 : ∀ d0 ∈ enq ++ [d], ∀ r ∈ lst.eraseIdx it, d0.name ≠ r.name := by
          intro d0 hd0 r hr
          rcases List.mem_append.1 hd0 with hd0 | hd0
          · exact hdisj d0 hd0 r (hsubE.subset hr)
          · simp only [List.mem_cons, List.not_mem_nil, or_false] at hd0
            exact hd0 ▸ hdnot r hr
        obtain ⟨i1, i2, i3, i4, i5, i6, i7, i8⟩ :=
          ih (it + 1) (lst.eraseIdx it) (some d) (enq ++ [d]) (ex ++ [lst[it]])
            lst' enq' last' ex' heq ⟨hinv1, hinv2, hinv3, hinv4⟩
        have hdenq' : d ∈ enq' := by
          obtain ⟨newEnq, rfl⟩ := i4
          exact List.mem_append_left _ (List.mem_append_right _ (List.mem_cons_self _ _))
        refine ⟨i1, ?_, ?_, ?_, ?_, ?_, ?_, ?_⟩
        · exact (hnE ▸ i2).trans (List.eraseIdx_sublist _ it)
        · intro r' hr'
          obtain ⟨r1, hr1, he1, he2⟩ := i3 r' hr'
          exact ⟨r1, hsubE.subset hr1, he1, he2⟩
        · obtain ⟨newEnq, he⟩ := i4
          exact ⟨[d] ++ newEnq, by rw [he, List.append_assoc]⟩
        · intro d0 hd0
          rcases i5 d0 hd0 with hd0m | ⟨hs0, r1, hr1, hn1, hs1⟩
          · rcases List.mem_append.1 hd0m with hd0m | hd0m
            · exact Or.inl hd0m
            · simp only [List.mem_cons, List.not_mem_nil, or_false] at hd0m
              subst hd0m
              exact Or.inr ⟨hst, lst[it], hr0, hdn, by rw [← hds, hst]⟩
          · exact Or.inr ⟨hs0, r1, hsubE.subset hr1, hn1, hs1⟩
        · intro r hr hrs
          have hrne : r ≠ lst[it] := by
            intro he
            apply hrs
            rw [he, ← hds, hst]
          exact i6 r (mem_eraseIdx_of_mem_ne hit hr hrne) hrs
        · intro r hr
          by_cases hre : r = lst[it]
          · exact Or.inr ⟨d, hdenq', by rw [hdn, hre]⟩
          · exact i7 r (mem_eraseIdx_of_mem_ne hit hr hre)
        · obtain ⟨newEx, he, hsub⟩ := i8
          refine ⟨[lst[it]] ++ newEx, by rw [he, List.append_assoc], ?_⟩
          have hd1 : ((lst.eraseIdx it).drop (it + 1)).map Rec.name =
              ((lst.map Rec.name).eraseIdx it).drop (it + 1) := by
            rw [List.map_drop, hnE]
          have hsub2 : (newEx.map Rec.name).Sublist ((lst.map Rec.name).drop (it + 1)) :=
            ((hd1 ▸ hsub).trans (drop_eraseIdx_sublist (lst.map Rec.name) it))
          have hdec : (lst.map Rec.name).drop it =
              lst[it].name :: (lst.map Rec.name).drop (it + 1) := by
            rw [List.drop_eq_getElem_cons (by simpa using hit), hgetn]
          rw [List.map_append, List.map_drop]
          rw [hdec]
          simpa using List.Sublist.cons₂ lst[it].name hsub2
      · -- observe-only branch
        rw [if_neg hst] at heq
        have hnS : (lst.set it p2).map Rec.name = lst.map Rec.name :=
          names_set lst p2 it hit hpn
        have hmemS : ∀ r ∈ lst.set it p2, r = p2 ∨ r ∈ lst := by
          intro r hr
          rcases List.mem_or_eq_of_mem_set hr with h | h
          · exact Or.inr h
          · exact Or.inl h
        have hp2mem : p2 ∈ lst.set it p2 := by
          have hl : it < (lst.set it p2).length := by simpa using hit
          have hm := List.getElem_mem hl
          rwa [List.getElem_set_self hl] at hm
        have hinv1 : ((lst.set it p2).map Rec.name).Nodup := by rw [hnS]; exact hnd
        have hinv2 : ∀ r ∈ lst.set it p2, validRec r := by
          intro r hr
          rcases hmemS r hr with h | h
          · exact h ▸ hpv
          · exact hval r h
        have hinv4 : ∀ d0 ∈ enq, ∀ r ∈ lst.set it p2, d0.name ≠ r.name := by
          intro d0 hd0 r hr
          have : r.name ∈ lst.map Rec.name := by
            rw [← hnS]
            exact List.mem_map_of_mem Rec.name hr
          obtain ⟨rr, hrr, hrrn⟩ := List.mem_map.1 this
          exact hrrn ▸ hdisj d0 hd0 rr hrr
        obtain ⟨i1, i2, i3, i4, i5, i6, i7, i8⟩ :=
          ih (it + 1) (lst.set it p2) (some d) enq (ex ++ [lst[it]])
            lst' enq' last' ex' heq ⟨hinv1, hinv2, hnde, hinv4⟩
        have htrace : ∀ r1 ∈ lst.set it p2, ∃ r ∈ lst, r1.name = r.name ∧ r1.state = r.state := by
          intro r1 hr1
          rcases hmemS r1 hr1 with h | h
          · exact ⟨lst[it], hr0, h ▸ hpn, h ▸ hps⟩
          · exact ⟨r1, h, rfl, rfl⟩
        refine ⟨i1, ?_, ?_, i4, ?_, ?_, ?_, ?_⟩
        · exact hnS ▸ i2
        · intro r' hr'
          obtain ⟨r1, hr1, he1, he2⟩ := i3 r' hr'
          obtain ⟨r, hr, hn1, hs1⟩ := htrace r1 hr1
          exact ⟨r, hr, he1.trans hn1, he2.trans hs1⟩
        · intro d0 hd0
          rcases i5 d0 hd0 with hd0m | ⟨hs0, r1, hr1, hn1, hs1⟩
          · exact Or.inl hd0m
          · obtain ⟨r, hr, hn2, hs2⟩ := htrace r1 hr1
            exact Or.inr ⟨hs0, r, hr, hn1.trans hn2, hs2 ▸ hs1⟩
        · intro r hr hrs
          by_cases hre : r = lst[it]
          · have hp2s : p2.state ≠ "not started" := by rw [hps, ← hre]; exact hrs
            obtain ⟨r', hr', hn1, hs1⟩ := i6 p2 hp2mem hp2s
            exact ⟨r', hr', by rw [hn1, hpn, ← hre], by rw [hs1, hps, ← hre]⟩
          · exact i6 r (mem_set_of_mem_ne hit hr hre) hrs
        · intro r hr
          by_cases hre : r = lst[it]
          · rcases i7 p2 hp2mem with ⟨r', hr', hn1⟩ | ⟨d0, hd0, hn1⟩
            · exact Or.inl ⟨r', hr', by rw [hn1, hpn, ← hre]⟩
            · exact Or.inr ⟨d0, hd0, by rw [hn1, hpn, ← hre]⟩
          · exact i7 r (mem_set_of_mem_ne hit hr hre)
        · obtain ⟨newEx, he, hsub⟩ := i8
          refine ⟨[lst[it]] ++ newEx, by rw [he, List.append_assoc], ?_⟩
          have hd1 : ((lst.set it p2).drop (it + 1)).map Rec.name =
              (lst.map Rec.name).drop (it + 1) := by
            rw [List.drop_set_of_lt p2 lst (Nat.lt_succ_self it), List.map_drop]
          have hsub2 : (newEx.map Rec.name).Sublist ((lst.map Rec.name).drop (it + 1)) := by
            rw [List.map_drop] at hsub
            rw [← hd1]
            rw [List.map_drop]
            exact hsub
          have hdec : (lst.map Rec.name).drop it =
              lst[it].name :: (lst.map Rec.name).drop (it + 1) := by
            rw [List.drop_eq_getElem_cons (by simpa using hit), hgetn]
          rw [List.map_append, List.map_drop, hdec]
          simpa using List.Sublist.cons₂ lst[it].name hsub2
    · rw [goScan_succ_of_ge fuel last enq ex hit] at heq
      simp only [Except.ok.injEq, Prod.mk.injEq] at heq
      obtain ⟨rfl, rfl, rfl, rfl⟩ := heq
      refine ⟨⟨(by obtain ⟨h, _⟩ := hinv; exact h), (by obtain ⟨_, h, _⟩ := hinv; exact h),
        (by obtain ⟨_, _, h, _⟩ := hinv; exact h), (by obtain ⟨_, _, _, h⟩ := hinv; exact h)⟩,
        List.Sublist.refl _, ?_, ⟨[], by simp⟩, ?_, ?_, ?_, ⟨[], by simp, by simp⟩⟩
      · exact fun r' hr' => ⟨r', hr', rfl, rfl⟩
      · exact fun d hd => Or.inl hd
      · exact fun r hr _ => ⟨r, hr, rfl, rfl⟩
      · exact fun r hr => Or.inl ⟨r, hr, rfl⟩

/-- On a list of well-formed records the scan never raises, and the
surviving records are well-formed again. -/
theorem goScan_ok :
    ∀ (fuel it : Nat) (lst : List Rec) (last : Option Defn) (enq : List Defn)
      (ex : List Rec), (∀ r ∈ lst, validRec r) →
      ∃ lst' enq' last' ex', goScan fuel it lst last enq ex = .ok (lst', enq', last', ex') ∧
        ∀ r ∈ lst', validRec r := by
  intro fuel
  induction fuel with
  | zero =>
    intro it lst last enq ex hv
    exact ⟨lst, enq, last, ex, goScan_zero it lst last enq ex, hv⟩
  | succ fuel ih =>
    intro it lst last enq ex hv
    by_cases hit : it < lst.length
    · obtain ⟨d, p2, hcd, _, _, _, _, hpv⟩ :=
        constructDef_valid last (hv _ (List.getElem_mem hit))
      rw [goScan_succ_of_lt fuel enq ex hit hcd]
      by_cases hst : d.state = "not started"
      · rw [if_pos hst]
        apply ih
        intro r hr
        rcases List.mem_or_eq_of_mem_set (pyRemove_subset hr) with h | h
        · exact hv r h
        · exact h ▸ hpv
      · rw [if_neg hst]
        apply ih
        intro r hr
        rcases List.mem_or_eq_of_mem_set hr with h | h
        · exact hv r h
        · exact h ▸ hpv
    · exact ⟨lst, enq, last, ex, goScan_succ_of_ge fuel last enq ex hit, hv⟩

/-- When no pending record is in state `"not started"`, a scan with enough
fuel walks the whole list: it examines every record from the start index on,
in list order, enqueues nothing and removes nothing. -/
theorem goScan_noRemove :
    ∀ (fuel it : Nat) (lst : List Rec) (last : Option Defn) (enq : List Defn)
      (ex : List Rec), lst.length ≤ fuel + it → (∀ r ∈ lst, validRec r) →
      (∀ r ∈ lst, r.state ≠ "not started") →
      ∃ lst' last', goScan fuel it lst last enq ex = .ok (lst', enq, last', ex ++ lst.drop it) ∧
        lst'.map Rec.name = lst.map Rec.name := by
  intro fuel
  induction fuel with
  | zero =>
    intro it lst last enq ex hlen hv hs
    refine ⟨lst, last, ?_, rfl⟩
    rw [goScan_zero, List.drop_eq_nil_of_le (by omega), List.append_nil]
  | succ fuel ih =>
    intro it lst last enq ex hlen hv hs
    by_cases hit : it < lst.length
    · obtain ⟨d, p2, hcd, _, hds, hpn, hps, hpv⟩ :=
        constructDef_valid last (hv _ (List.getElem_mem hit))
      have hst : ¬ d.state = "not started" := by
        rw [hds]
        exact hs _ (List.getElem_mem hit)
      rw [goScan_succ_of_lt fuel enq ex hit hcd, if_neg hst]
      have hv2 : ∀ r ∈ lst.set it p2, validRec r := by
        intro r hr
        rcases List.mem_or_eq_of_mem_set hr with h | h
        · exact hv r h
        · exact h ▸ hpv
      have hs2 : ∀ r ∈ lst.set it p2, r.state ≠ "not started" := by
        intro r hr
        rcases List.mem_or_eq_of_mem_set hr with h | h
        · exact hs r h
        · rw [h, hps]
          exact hs _ (List.getElem_mem hit)
      obtain ⟨lst', last', hrun, hnm⟩ :=
        ih (it + 1) (lst.set it p2) (some d) enq (ex ++ [lst[it]])
          (by simpa using (by omega : lst.length ≤ fuel + (it + 1))) hv2 hs2
      refine ⟨lst', last', ?_, hnm.trans (names_set lst p2 it hit hpn)⟩
      rw [hrun, List.drop_set_of_lt p2 lst (Nat.lt_succ_self it), List.append_assoc]
      rw [List.singleton_append, List.getElem_cons_drop lst it hit]
    · refine ⟨lst, last, ?_, rfl⟩
      rw [goScan_succ_of_ge fuel last enq ex hit,
        List.drop_eq_nil_of_le (by omega), List.append_nil]

/-! ## Loop-level lemmas -/

/-- What any number of passes of the `while definitions_list:` loop
guarantees, given the loop invariant — the per-pass guarantees of
`goScan_main`, composed over passes. -/
theorem loopState_main :
    ∀ (n : Nat) (s s' : LoopSt), loopState n s = .ok s' → LInv s →
      LInv s' ∧
      ((s'.pending.map Rec.name).Sublist (s.pending.map Rec.name)) ∧
      (∀ r' ∈ s'.pending, ∃ r ∈ s.pending, r'.name = r.name ∧ r'.state = r.state) ∧
      (∃ newEnq, s'.enq = s.enq ++ newEnq) ∧
      (∀ d ∈ s'.enq, d ∈ s.enq ∨
        (d.state = "not started" ∧ ∃ r ∈ s.pending, d.name = r.name ∧ r.state = "not started")) ∧
      (∀ r ∈ s.pending, r.state ≠ "not started" →
        ∃ r' ∈ s'.pending, r'.name = r.name ∧ r'.state = r.state) ∧
      (∀ r ∈ s.pending, (∃ r' ∈ s'.pending, r'.name = r.name) ∨ (∃ d ∈ s'.enq, d.name = r.name)) := by
  intro n
  induction n with
  | zero =>
    intro s s' heq hinv
    rw [loopState_zero] at heq
    obtain rfl : s = s' := by simpa using heq
    refine ⟨hinv, List.Sublist.refl _, ?_, ⟨[], by simp⟩, ?_, ?_, ?_⟩
    · exact fun r' hr' => ⟨r', hr', rfl, rfl⟩
    · exact fun d hd => Or.inl hd
    · exact fun r hr _ => ⟨r, hr, rfl, rfl⟩
    · exact fun r hr => Or.inl ⟨r, hr, rfl⟩
  | succ n ih =>
    intro s s' heq hinv
    by_cases hne : s.pending = []
    · rw [loopState_succ_nil n s hne] at heq
      obtain rfl : s = s' := by simpa using heq
      refine ⟨hinv, List.Sublist.refl _, ?_, ⟨[], by simp⟩, ?_, ?_, ?_⟩
      · exact fun r' hr' => ⟨r', hr', rfl, rfl⟩
      · exact fun d hd => Or.inl hd
      · exact fun r hr _ => ⟨r, hr, rfl, rfl⟩
      · exact fun r hr => Or.inl ⟨r, hr, rfl⟩
    · obtain ⟨hnd, hval, hnde, hdisj⟩ := hinv
      cases hop : onePass s.pending s.lastDef with
      | error e =>
        rw [loopState_succ_err n s hne hop] at heq
        cases heq
      | ok out =>
        obtain ⟨lst1, newEnq, last1, ex1⟩ := out
        rw [loopState_succ_cons n s hne hop] at heq
        obtain ⟨m1, m2, m3, m4, m5, m6, m7, _⟩ :=
          goScan_main s.pending.length 0 s.pending s.lastDef [] [] lst1 newEnq last1 ex1
            hop ⟨hnd, hval, by simp, by simp⟩
        obtain ⟨mInd, mIva, mInE, mIdj⟩ := m1
        have hsrc : ∀ d ∈ newEnq,
            d.state = "not started" ∧ ∃ r ∈ s.pending, d.name = r.name ∧ r.state = "not started" := by
          intro d hd
          rcases m5 d hd with h | h
          · simp at h
          · exact h
        have hinv1 : LInv ⟨lst1, last1, s.enq ++ newEnq⟩ := by
          refine ⟨mInd, mIva, ?_, ?_⟩
          · rw [List.map_append]
            refine List.nodup_append.2 ⟨hnde, mInE, ?_⟩
            intro a ha hb
            obtain ⟨d0, hd0, rfl⟩ := List.mem_map.1 ha
            obtain ⟨d1, hd1, hd1n⟩ := List.mem_map.1 hb
            obtain ⟨_, r, hr, hrn, _⟩ := hsrc d1 hd1
            exact hdisj d0 hd0 r hr (hd1n ▸ hrn)
          · intro d0 hd0 r hr
            rcases List.mem_append.1 hd0 with h | h
            · obtain ⟨rr, hrr, hn1, _⟩ := m3 r hr
              intro hc
              exact hdisj d0 h rr hrr (hc.trans hn1)
            · exact mIdj d0 h r hr
        obtain ⟨j1, j2, j3, j4, j5, j6, j7⟩ := ih ⟨lst1, last1, s.enq ++ newEnq⟩ s' heq hinv1
        refine ⟨j1, j2.trans m2, ?_, ?_, ?_, ?_, ?_⟩
        · intro r' hr'
          obtain ⟨r1, hr1, he1, he2⟩ := j3 r' hr'
          obtain ⟨r, hr, hn1, hs1⟩ := m3 r1 hr1
          exact ⟨r, hr, he1.trans hn1, he2.trans hs1⟩
        · obtain ⟨new2, hj⟩ := j4
          exact ⟨newEnq ++ new2, by rw [hj]; simp [List.append_assoc]⟩
        · intro d hd
          rcases j5 d hd with h | ⟨hds0, r1, hr1, hn1, hs1⟩
          · rcases List.mem_append.1 h with h | h
            · exact Or.inl h
            · exact Or.inr (hsrc d h)
          · obtain ⟨r, hr, hn2, hs2⟩ := m3 r1 hr1
            exact Or.inr ⟨hds0, r, hr, hn1.trans hn2, hs2 ▸ hs1⟩
        · intro r hr hrs
          obtain ⟨r1, hr1, hn1, hs1⟩ := m6 r hr hrs
          obtain ⟨r', hr', hn2, hs2⟩ := j6 r1 hr1 (by rw [hs1]; exact hrs)
          exact ⟨r', hr', hn2.trans hn1, hs2.trans hs1⟩
        · intro r hr
          rcases m7 r hr with ⟨r1, hr1, hn1⟩ | ⟨d, hd, hn1⟩
          · rcases j7 r1 hr1 with ⟨r', hr', hn2⟩ | ⟨d, hd, hn2⟩
            · exact Or.inl ⟨r', hr', hn2.trans hn1⟩
            · exact Or.inr ⟨d, hd, hn2.trans hn1⟩
          · obtain ⟨new2, hj⟩ := j4
            refine Or.inr ⟨d, ?_, hn1⟩
            rw [hj]
            exact List.mem_append_left _ (List.mem_append_right _ hd)

/-- On well-formed pending records the loop never raises. -/
theorem loopState_ok :
    ∀ (n : Nat) (s : LoopSt), (∀ r ∈ s.pending, validRec r) →
      ∃ s', loopState n s = .ok s' ∧ ∀ r ∈ s'.pending, validRec r := by
  intro n
  induction n with
  | zero => exact fun s hv => ⟨s, loopState_zero s, hv⟩
  | succ n ih =>
    intro s hv
    by_cases hne : s.pending = []
    · exact ⟨s, loopState_succ_nil n s hne, hv⟩
    · obtain ⟨lst1, newEnq, last1, ex1, hop, hv1⟩ :=
        goScan_ok s.pending.length 0 s.pending s.lastDef [] [] hv
      obtain ⟨s', hrun, hv'⟩ := ih ⟨lst1, last1, s.enq ++ newEnq⟩ hv1
      exact ⟨s', (loopState_succ_cons n s hne hop).trans hrun, hv'⟩

theorem runLoop_nil (fuel : Nat) (last : Option Defn) (enq : List Defn) :
    runLoop fuel [] last enq = some (.ok enq) := by
  cases fuel <;> rfl

theorem runLoop_zero_cons {lst : List Rec} (last : Option Defn) (enq : List Defn)
    (h : lst ≠ []) : runLoop 0 lst last enq = none := by
  rw [runLoop, if_neg (by simp [List.isEmpty_iff, h])]

theorem runLoop_succ_cons (f : Nat) {lst : List Rec} {last : Option Defn}
    (enq : List Defn) (h : lst ≠ []) {lst' : List Rec} {newEnq : List Defn}
    {last' : Option Defn} {ex : List Rec}
    (hop : onePass lst last = .ok (lst', newEnq, last', ex)) :
    runLoop (f + 1) lst last enq = runLoop f lst' last' (enq ++ newEnq) := by
  rw [runLoop, if_neg (by simp [List.isEmpty_iff, h]), hop]

/-- With a well-formed, name-distinct pending list containing a record whose
state is not `"not started"`, the loop never finishes: no amount of fuel
makes `runLoop` return. -/
theorem runLoop_none :
    ∀ (fuel : Nat) (lst : List Rec) (last : Option Defn) (enq : List Defn),
      (∀ r ∈ lst, validRec r) → ((lst.map Rec.name).Nodup) →
      (∃ r ∈ lst, r.state ≠ "not started") →
      runLoop fuel lst last enq = none := by
  intro fuel
  induction fuel with
  | zero =>
    intro lst last enq _ _ hstuck
    obtain ⟨r, hr, _⟩ := hstuck
    exact runLoop_zero_cons last enq (by rintro rfl; cases hr)
  | succ f ih =>
    intro lst last enq hv hnd hstuck
    obtain ⟨r, hr, hrs⟩ := hstuck
    obtain ⟨lst1, newEnq, last1, ex1, hop, hv1⟩ :=
      goScan_ok lst.length 0 lst last [] [] hv
    obtain ⟨m1, _, _, _, _, m6, _, _⟩ :=
      goScan_main lst.length 0 lst last [] [] lst1 newEnq last1 ex1
        hop ⟨hnd, hv, by simp, by simp⟩
    obtain ⟨r1, hr1, _, hs1⟩ := m6 r hr hrs
    rw [runLoop_succ_cons f enq (by rintro rfl; cases hr) hop]
    exact ih lst1 last1 (enq ++ newEnq) hv1 m1.1 ⟨r1, hr1, by rw [hs1]; exact hrs⟩

/-! ## The dispatch machine invariant -/

theorem reach_inv {batch : List Rec} {s : DState} (h : Reach batch s) : MInv s := by
  induction h with
  | start =>
    refine ⟨rfl, rfl, ?_, ?_⟩ <;> simp [initState]
  | next s s' hr hstep ih =>
    obtain ⟨i1, i2, i3, i4⟩ := ih
    cases hstep with
    | scan lst' newEnq last' ex hph hpe hop =>
      refine ⟨by simp [i1], by simp; omega, ?_, ?_⟩ <;> simp
    | scanErr e hph hpe hop =>
      refine ⟨i1, i2, ?_, ?_⟩ <;> simp
    | exitLoop hph hpe =>
      refine ⟨i1, i2, ?_, ?_⟩ <;> simp [hpe, hph]
    | work d rest hq =>
      have hlen : s.unfinished = rest.length + 1 := by
        rw [i1, hq]
        rfl
      refine ⟨by simp; omega, by simp; omega, ?_, ?_⟩
      · intro hj
        exact i3 (by simpa using hj)
      · intro hj
        have := i4 (by simpa using hj)
        simp
        omega
    | joinReturn hph hz =>
      exact ⟨i1, i2, fun _ => i3 (Or.inl hph), fun _ => hz⟩

/-! ## Store and loader lemmas -/

theorem upsertDoc_names :
    ∀ (coll : List Rec) (p : Rec) (n : String),
      n ∈ (upsertDoc coll p).map Rec.name → n = p.name ∨ n ∈ coll.map Rec.name := by
  intro coll p
  induction coll with
  | nil => intro n hn; simp [upsertDoc] at hn; exact Or.inl hn
  | cons d ds ih =>
    intro n hn
    by_cases hd : d.name = p.name
    · rw [upsertDoc, if_pos hd] at hn
      simp only [List.map_cons, List.mem_cons] at hn
      rcases hn with hn | hn
      · exact Or.inl hn
      · exact Or.inr (by simp [hn])
    · rw [upsertDoc, if_neg hd] at hn
      simp only [List.map_cons, List.mem_cons] at hn
      rcases hn with hn | hn
      · exact Or.inr (by simp [hn])
      · rcases ih n hn with h | h
        · exact Or.inl h
        · exact Or.inr (by simp [h])

theorem upsertDoc_nodup :
    ∀ (coll : List Rec) (p : Rec), ((coll.map Rec.name).Nodup) →
      ((upsertDoc coll p).map Rec.name).Nodup := by
  intro coll p
  induction coll with
  | nil => intro _; simp [upsertDoc]
  | cons d ds ih =>
    intro hnd
    rw [List.map_cons] at hnd
    obtain ⟨hd, hds⟩ := List.nodup_cons.1 hnd
    by_cases hdp : d.name = p.name
    · rw [upsertDoc, if_pos hdp]
      simp only [List.map_cons]
      exact List.nodup_cons.2 ⟨hdp ▸ hd, hds⟩
    · rw [upsertDoc, if_neg hdp]
      simp only [List.map_cons]
      refine List.nodup_cons.2 ⟨?_, ih hds⟩
      intro hmem
      rcases upsertDoc_names ds p d.name hmem with h | h
      · exact hdp h
      · exact hd h

theorem ensure_definition_nodup :
    ∀ (sections : List (String × Rec)) (coll : List Rec),
      ((coll.map Rec.name).Nodup) →
      ((ensure_definition sections coll).map Rec.name).Nodup := by
  intro sections
  induction sections with
  | nil => intro coll h; exact h
  | cons sf rest ih =>
    intro coll h
    exact ih (upsertDoc coll (buildParams sf.1 sf.2)) (upsertDoc_nodup coll _ h)

theorem foldl_append_retype (t : String) :
    ∀ (l acc : List Rec),
      l.foldl (fun defs params => defs ++ [{ params with rtype := t }]) acc =
        acc ++ l.map (fun params => { params with rtype := t }) := by
  intro l
  induction l with
  | nil => intro acc; simp
  | cons a l ih => intro acc; simp [ih]

theorem pull_definitions_alert (db : DB) :
    pull_definitions db "alert" =
      .ok ((db.find ALERTS_COLLECTION).map fun p => { p with rtype := "alert" }) := by
  rw [pull_definitions]
  simp [foldl_append_retype]

theorem pull_definitions_report (db : DB) :
    pull_definitions db "report" =
      .ok ((db.find REPORTS_COLLECTION).map fun p => { p with rtype := "report" }) := by
  rw [pull_definitions]
  simp [foldl_append_retype]

theorem pull_definitions_other (db : DB) (t : String) (h1 : t ≠ "alert")
    (h2 : t ≠ "report") : pull_definitions db t = .error .nameError := by
  rw [pull_definitions, if_neg h1, if_neg h2]

theorem names_retype (l : List Rec) (t : String) :
    ((l.map fun p => { p with rtype := t }).map Rec.name) = l.map Rec.name := by
  induction l with
  | nil => rfl
  | cons a l ih => simp [ih]

/-- A missing required alert key makes the reconstruction raise `KeyError`
(the read of the missing key happens before any Definition is built). -/
theorem constructDef_alert_missing {r : Rec} (last : Option Defn)
    (ht : r.rtype = "alert")
    (hmiss : r.transform = none ∨ r.comparator = none ∨ r.epoch_type = none ∨
      r.threads = none ∨ r.epoch_count = none) :
    constructDef r last = .error .keyError := by
  rcases hmiss with h | h | h | h | h
  · simp [constructDef, ht, h]
  · cases h1 : r.transform <;> simp [constructDef, ht, h1, h]
  · cases h1 : r.transform <;> cases h2 : r.comparator <;>
      simp [constructDef, ht, h1, h2, h]
  · cases h1 : r.transform <;> cases h2 : r.comparator <;> cases h3 : r.epoch_type <;>
      simp [constructDef, ht, h1, h2, h3, h]
  · cases h1 : r.transform <;> cases h2 : r.comparator <;> cases h3 : r.epoch_type <;>
      cases h4 : r.threads <;> simp [constructDef, ht, h1, h2, h3, h4, h]

/-- A missing `homogeneity` key makes the report reconstruction raise
`KeyError`. -/
theorem constructDef_report_missing {r : Rec} (last : Option Defn)
    (ht : r.rtype = "report") (hmiss : r.homogeneity = none) :
    constructDef r last = .error .keyError := by
  have hne : r.rtype ≠ "alert" := by rw [ht]; decide
  simp [constructDef, ht, hne, hmiss]

/-! ## The claims -/

/-- C1: for every batch, `start_definition_processing` returns only after
its pending list has emptied and the queue drain barrier (`join`) has
returned — in every reachable machine state whose phase is past the barrier,
the pending list is empty, the queue is empty, and every enqueued item has
been reported processed. -/
theorem C1_returns_only_after_drain (batch : List Rec) (s : DState)
    (hreach : Reach batch s) (hret : s.phase = .returned) :
    s.pending = [] ∧ s.queue = [] ∧ s.procTotal = s.enqTotal := by
  obtain ⟨i1, i2, i3, i4⟩ := reach_inv hreach
  have hz := i4 hret
  refine ⟨i3 (Or.inr hret), ?_, ?_⟩
  · rw [i1] at hz
    exact List.length_eq_zero.1 hz
  · omega

/-- Witness for C1: a complete dispatch run on the one-record batch `[gRec]`
reaching the returned phase. -/
theorem C1_returns_only_after_drain_witness :
    runDState.pending = [] ∧ runDState.queue = [] ∧
      runDState.procTotal = runDState.enqTotal := by
  have h0 : Reach [gRec] (initState [gRec]) := Reach.start
  have h1 : Reach [gRec] ⟨[], some gDefn, [gDefn], 1, 1, 0, .looping⟩ :=
    Reach.next _ _ h0 (DStep.scan (initState [gRec]) [] [gDefn] (some gDefn) [gRec]
      rfl (by simp [initState]) rfl)
  have h2 : Reach [gRec] ⟨[], some gDefn, [gDefn], 1, 1, 0, .joining⟩ :=
    Reach.next _ _ h1 (DStep.exitLoop _ rfl rfl)
  have h3 : Reach [gRec] ⟨[], some gDefn, [], 0, 1, 1, .joining⟩ :=
    Reach.next _ _ h2 (DStep.work _ gDefn [] rfl)
  have h4 : Reach [gRec] runDState :=
    Reach.next _ _ h3 (DStep.joinReturn _ rfl rfl)
  exact C1_returns_only_after_drain [gRec] runDState h4 rfl

/-- C2: within one dispatch call each record is enqueued at most once
(enqueued definition names stay distinct); a record whose reconstructed
state is `"running"` is left in the pending list and never enqueued; and a
record whose reconstructed state is `"not started"` is enqueued exactly when
it is removed from the pending list. -/
theorem C2_enqueue_once (batch : List Rec) (n : Nat)
    (hnd : ((batch.map Rec.name).Nodup)) (hv : ∀ r ∈ batch, validRec r)
    (s' : LoopSt) (hrun : loopState n ⟨batch, none, []⟩ = .ok s') :
    ((s'.enq.map Defn.name).Nodup) ∧
    (∀ r ∈ batch, r.state = "running" →
      (∃ r' ∈ s'.pending, r'.name = r.name) ∧ ∀ d ∈ s'.enq, d.name ≠ r.name) ∧
    (∀ r ∈ batch, r.state = "not started" →
      ((∃ d ∈ s'.enq, d.name = r.name) ↔ ¬ ∃ r' ∈ s'.pending, r'.name = r.name)) := by
  obtain ⟨⟨hnd', hv', hnde', hdisj'⟩, _, _, _, m5, m6, m7⟩ :=
    loopState_main n ⟨batch, none, []⟩ s' hrun ⟨hnd, hv, by simp, by simp⟩
  refine ⟨hnde', ?_, ?_⟩
  · intro r hr hrun0
    refine ⟨?_, ?_⟩
    · obtain ⟨r', hr', hn, _⟩ := m6 r hr (by rw [hrun0]; decide)
      exact ⟨r', hr', hn⟩
    · intro d hd hc
      rcases m5 d hd with h | ⟨_, r2, hr2, hn2, hs2⟩
      · simp at h
      · have h2r : r2 = r := List.inj_on_of_nodup_map hnd hr2 hr (by rw [← hn2, hc])
        rw [h2r, hrun0] at hs2
        exact absurd hs2 (by decide)
  · intro r hr _
    constructor
    · rintro ⟨d, hd, hdn⟩ ⟨r', hr', hrn⟩
      exact hdisj' d hd r' hr' (by rw [hdn, hrn])
    · intro hnot
      rcases m7 r hr with ⟨r', hr', hn⟩ | ⟨d, hd, hn⟩
      · exact absurd ⟨r', hr', hn⟩ hnot
      · exact ⟨d, hd, hn⟩

/-- Witness for C2: one pass over a not-started alert and a running report;
the alert is enqueued once and removed, the report stays pending and is
never enqueued. -/
theorem C2_enqueue_once_witness :
    (((LoopSt.mk [runRec] (some gDefn) [gDefn]).enq.map Defn.name).Nodup) ∧
    (∀ r ∈ [gRec, runRec], r.state = "running" →
      (∃ r' ∈ (LoopSt.mk [runRec] (some gDefn) [gDefn]).pending, r'.name = r.name) ∧
      ∀ d ∈ (LoopSt.mk [runRec] (some gDefn) [gDefn]).enq, d.name ≠ r.name) ∧
    (∀ r ∈ [gRec, runRec], r.state = "not started" →
      ((∃ d ∈ (LoopSt.mk [runRec] (some gDefn) [gDefn]).enq, d.name = r.name) ↔
        ¬ ∃ r' ∈ (LoopSt.mk [runRec] (some gDefn) [gDefn]).pending, r'.name = r.name)) :=
  C2_enqueue_once [gRec, runRec] 1 (by decide) (by decide)
    ⟨[runRec], some gDefn, [gDefn]⟩ rfl

/-- C2 and C3 context, C3 counterexample: a raw alert record missing the
required key `transform` is not rejected by the loader — `pull_definitions`
returns it — and the `KeyError` is raised inside the dispatch scan, so the
failure is not surfaced to the caller of the loader. -/
theorem C3_loader_rejects_counterexample :
    pull_definitions mDB "alert" = .ok [{ mRec with rtype := "alert" }] ∧
    onePass [{ mRec with rtype := "alert" }] none = .error .keyError :=
  ⟨rfl, rfl⟩

/-- C3 amended: the loader performs no validation — it returns every stored
record of the collection — and a record missing a required kind-specific
key makes the dispatch loop raise an unhandled `KeyError` when the key is
read, before any Definition object is constructed. -/
theorem C3_missing_field_amended :
    (∀ db : DB, pull_definitions db "alert" =
      .ok ((db.find ALERTS_COLLECTION).map fun p => { p with rtype := "alert" })) ∧
    (∀ (r : Rec) (last : Option Defn), r.rtype = "alert" →
      (r.transform = none ∨ r.comparator = none ∨ r.epoch_type = none ∨
        r.threads = none ∨ r.epoch_count = none) →
      constructDef r last = .error .keyError) ∧
    (∀ (r : Rec) (last : Option Defn), r.rtype = "report" → r.homogeneity = none →
      constructDef r last = .error .keyError) :=
  ⟨pull_definitions_alert, fun _ last ht hm => constructDef_alert_missing last ht hm,
    fun _ last ht hm => constructDef_report_missing last ht hm⟩

/-- Witness for the amended C3, on the malformed record `mRec`. -/
theorem C3_missing_field_witness :
    pull_definitions mDB "alert" = .ok [{ mRec with rtype := "alert" }] ∧
    constructDef { mRec with rtype := "alert" } none = .error .keyError := by
  constructor
  · rw [C3_missing_field_amended.1 mDB]
    rfl
  · exact C3_missing_field_amended.2.1 { mRec with rtype := "alert" } none rfl (Or.inl rfl)

/-- C4: the dispatch call launches exactly `len(batch)` Workers before any
enqueue happens, each constructed over the single dispatch queue and marked
as a daemon thread: the first `len(batch)` trace events are exactly that
many spawns of ⟨`mainQueue`, daemon⟩, the trace carries no other spawn, and
everything after them (the `put` events) is not a spawn. -/
theorem C4_spawn_pool (definitions : List Rec) (puts : List Defn) :
    ((dispatchTrace definitions puts).take definitions.length =
      List.replicate definitions.length (Ev.spawn mainQueue true)) ∧
    (((dispatchTrace definitions puts).filter isSpawn).length = definitions.length) ∧
    (∀ e ∈ (dispatchTrace definitions puts).drop definitions.length, isSpawn e = false) := by
  have hsp : spawnPhase definitions =
      List.replicate definitions.length (Ev.spawn mainQueue true) := by
    simp [spawnPhase, List.map_const']
  have hlen : (spawnPhase definitions).length = definitions.length := by
    simp [spawnPhase]
  refine ⟨?_, ?_, ?_⟩
  · have htk : (dispatchTrace definitions puts).take (spawnPhase definitions).length =
        spawnPhase definitions := by
      rw [dispatchTrace]
      exact List.take_left _ _
    rw [hlen] at htk
    rw [htk, hsp]
  · rw [dispatchTrace, List.filter_append]
    have h1 : (spawnPhase definitions).filter isSpawn = spawnPhase definitions := by
      rw [List.filter_eq_self]
      intro e he
      rw [hsp] at he
      rw [List.eq_of_mem_replicate he]
      rfl
    have h2 : (puts.map Ev.put).filter isSpawn = [] := by
      rw [List.filter_eq_nil_iff]
      intro e he
      obtain ⟨d, _, rfl⟩ := List.mem_map.1 he
      simp [isSpawn]
    rw [h1, h2, List.append_nil, hlen]
  · intro e he
    rw [dispatchTrace, ← hlen, List.drop_left] at he
    obtain ⟨d, _, rfl⟩ := List.mem_map.1 he
    rfl

/-- C5: the pipeline given to a record before its Definition is constructed
is fixed per kind and independent of the record content: alert records get
exactly `ALERT_TASKS`, report records exactly `REPORT_TASKS`, both on the
mutated record and on the constructed Definition. -/
theorem C5_pipeline_per_kind (params : Rec) (last : Option Defn) (d : Defn) (p2 : Rec)
    (hok : constructDef params last = .ok (d, p2)) :
    (params.rtype = "alert" → d.pipeline = ALERT_TASKS ∧ p2.pipeline = ALERT_TASKS) ∧
    (params.rtype = "report" → d.pipeline = REPORT_TASKS ∧ p2.pipeline = REPORT_TASKS) := by
  constructor
  · intro ht
    cases h1 : params.transform with
    | none => rw [constructDef_alert_missing last ht (Or.inl h1)] at hok; cases hok
    | some t =>
      cases h2 : params.comparator with
      | none =>
        rw [constructDef_alert_missing last ht (Or.inr (Or.inl h2))] at hok; cases hok
      | some c =>
        cases h3 : params.epoch_type with
        | none =>
          rw [constructDef_alert_missing last ht (Or.inr (Or.inr (Or.inl h3)))] at hok
          cases hok
        | some e =>
          cases h4 : params.threads with
          | none =>
            rw [constructDef_alert_missing last ht
              (Or.inr (Or.inr (Or.inr (Or.inl h4))))] at hok
            cases hok
          | some th =>
            cases h5 : params.epoch_count with
            | none =>
              rw [constructDef_alert_missing last ht
                (Or.inr (Or.inr (Or.inr (Or.inr h5))))] at hok
              cases hok
            | some ec =>
              rw [constructDef_alert last ht h1 h2 h3 h4 h5] at hok
              simp only [Except.ok.injEq, Prod.mk.injEq] at hok
              obtain ⟨hd, hp⟩ := hok
              exact ⟨by rw [← hd], by rw [← hp]⟩
  · intro ht
    cases h1 : params.homogeneity with
    | none => rw [constructDef_report_missing last ht h1] at hok; cases hok
    | some hg =>
      rw [constructDef_report last ht h1] at hok
      simp only [Except.ok.injEq, Prod.mk.injEq] at hok
      obtain ⟨hd, hp⟩ := hok
      exact ⟨by rw [← hd], by rw [← hp]⟩

/-- Witness for C5 on the concrete alert record `gRec`. -/
theorem C5_pipeline_per_kind_witness :
    gDefn.pipeline = ALERT_TASKS ∧
      Rec.pipeline { gRec with pipeline := ALERT_TASKS } = ALERT_TASKS :=
  (C5_pipeline_per_kind gRec none gDefn { gRec with pipeline := ALERT_TASKS } rfl).1 rfl

/-- C6 counterexample: a scan over two not-started alert records examines
only the first one — after the first record is enqueued and removed, the
second record slides into its slot and the iterator skips it, so the
examined sequence is `[gRec]`, not the full pending list `[gRec, g2Rec]`. -/
theorem C6_scan_order_counterexample :
    onePass [gRec, g2Rec] none = .ok ([g2Rec], [gDefn], some gDefn, [gRec]) ∧
    g2Rec ∈ [gRec, g2Rec] ∧ g2Rec ∉ ([gRec] : List Rec) :=
  ⟨rfl, by simp, by decide⟩

/-- C6 amended: one polling pass examines pending records at successive
iterator indices of the mutating list — the examined names are an in-order
subsequence of the pending names, but a record immediately following a
removed record is skipped for that pass; when no record is removed (no
pending record is in state `"not started"`), the pass examines exactly the
whole pending list in order. -/
theorem C6_scan_order_amended (lst : List Rec) (last : Option Defn)
    (hnd : ((lst.map Rec.name).Nodup)) (hv : ∀ r ∈ lst, validRec r) :
    (∀ lst' enq' last' ex', onePass lst last = .ok (lst', enq', last', ex') →
      ((ex'.map Rec.name).Sublist (lst.map Rec.name))) ∧
    ((∀ r ∈ lst, r.state ≠ "not started") →
      ∃ lst' last', onePass lst last = .ok (lst', [], last', lst) ∧
        lst'.map Rec.name = lst.map Rec.name) := by
  constructor
  · intro lst' enq' last' ex' hop
    obtain ⟨_, _, _, _, _, _, _, newEx, hex, hsub⟩ :=
      goScan_main lst.length 0 lst last [] [] lst' enq' last' ex' hop
        ⟨hnd, hv, by simp, by simp⟩
    rw [List.nil_append] at hex
    subst hex
    simpa using hsub
  · intro hs
    obtain ⟨lst', last', hrun, hnm⟩ :=
      goScan_noRemove lst.length 0 lst last [] [] (by omega) hv hs
    refine ⟨lst', last', ?_, hnm⟩
    show goScan lst.length 0 lst last [] [] = _
    simpa using hrun

/-- Witness for the amended C6: a one-record pass over a running report
examines exactly the whole pending list. -/
theorem C6_scan_order_amended_witness :
    ∃ lst' last', onePass [runRec] none = .ok (lst', [], last', [runRec]) ∧
      lst'.map Rec.name = [runRec].map Rec.name :=
  (C6_scan_order_amended [runRec] none (by decide) (by decide)).2 (by decide)

/-- C7: `ensure_definition` upserts keyed on the section name into
collections whose `name` values are unique (the unique index), so
`pull_definitions` returns at most one record per (kind, name) pair: the
pulled lists of both kinds carry pairwise distinct names. -/
theorem C7_loader_dedup (sections : List (String × Rec)) (collA collR : List Rec)
    (hA : ((collA.map Rec.name).Nodup)) (hR : ((collR.map Rec.name).Nodup)) :
    ∃ la lr, pull_definitions (mkStoreDB sections collA collR) "alert" = .ok la ∧
      pull_definitions (mkStoreDB sections collA collR) "report" = .ok lr ∧
      ((la.map Rec.name).Nodup) ∧ ((lr.map Rec.name).Nodup) := by
  have hfA : (mkStoreDB sections collA collR).find ALERTS_COLLECTION =
      ensure_definition sections collA := by
    simp [mkStoreDB]
  have hfR : (mkStoreDB sections collA collR).find REPORTS_COLLECTION =
      ensure_definition sections collR := by
    show (if REPORTS_COLLECTION = ALERTS_COLLECTION then ensure_definition sections collA
      else if REPORTS_COLLECTION = REPORTS_COLLECTION then ensure_definition sections collR
      else []) = _
    rw [if_neg (by decide), if_pos rfl]
  refine ⟨_, _, pull_definitions_alert _, pull_definitions_report _, ?_, ?_⟩
  · rw [names_retype, hfA]
    exact ensure_definition_nodup sections collA hA
  · rw [names_retype, hfR]
    exact ensure_definition_nodup sections collR hR

/-- Witness for C7: two sections with the same name upserted into empty
collections still pull with distinct names. -/
theorem C7_loader_dedup_witness :
    ∃ la lr, pull_definitions (mkStoreDB [("a", gRec), ("a", runRec)] [] []) "alert" = .ok la ∧
      pull_definitions (mkStoreDB [("a", gRec), ("a", runRec)] [] []) "report" = .ok lr ∧
      ((la.map Rec.name).Nodup) ∧ ((lr.map Rec.name).Nodup) :=
  C7_loader_dedup [("a", gRec), ("a", runRec)] [] [] (by simp) (by simp)

/-- C8: a record that always reconstructs to a state other than
`"not started"` (for example `"completed"` carried in the stored record) is
never removed from the pending list, so the polling loop never empties it
and `start_definition_processing` never returns. -/
theorem C8_stuck_record_nontermination (batch : List Rec) (r : Rec) (hr : r ∈ batch)
    (hnd : ((batch.map Rec.name).Nodup)) (hv : ∀ x ∈ batch, validRec x)
    (h1 : r.state ≠ "not started") (_h2 : r.state ≠ "running") :
    (∀ n, ∃ s', loopState n ⟨batch, none, []⟩ = .ok s' ∧
      (∃ r' ∈ s'.pending, r'.name = r.name ∧ r'.state = r.state) ∧ s'.pending ≠ []) ∧
    (∀ fuel, start_definition_processing fuel batch = none) := by
  constructor
  · intro n
    obtain ⟨s', hrun, _⟩ := loopState_ok n ⟨batch, none, []⟩ hv
    obtain ⟨_, _, _, _, _, m6, _⟩ :=
      loopState_main n ⟨batch, none, []⟩ s' hrun ⟨hnd, hv, by simp, by simp⟩
    obtain ⟨r', hr', hn, hs⟩ := m6 r hr h1
    refine ⟨s', hrun, ⟨r', hr', hn, hs⟩, ?_⟩
    intro h0
    rw [h0] at hr'
    cases hr'
  · intro fuel
    exact runLoop_none fuel batch none [] hv hnd ⟨r, hr, h1⟩

/-- Witness for C8 on the one-record batch `[stuckRec]` (state
`"completed"`). -/
theorem C8_stuck_record_nontermination_witness :
    (∃ s', loopState 2 ⟨[stuckRec], none, []⟩ = .ok s' ∧
      (∃ r' ∈ s'.pending, r'.name = stuckRec.name ∧ r'.state = stuckRec.state) ∧
      s'.pending ≠ []) ∧
    start_definition_processing 3 [stuckRec] = none := by
  have h := C8_stuck_record_nontermination [stuckRec] stuckRec (by simp) (by decide)
    (by decide) (by decide) (by decide)
  exact ⟨h.1 2, h.2 3⟩

/-- C9: a record whose `type` is neither `"alert"` nor `"report"` raises an
unhandled `NameError` when it is the first record of the batch (the local
`definition` was never assigned); appearing after a not-started record, the
state of the previously constructed definition is consulted instead, so the
prior definition is enqueued a second time and the invalid record is removed
from pending without ever being enqueued. -/
theorem C9_invalid_type_behaviour :
    onePass [badRec] none = .error .nameError ∧
    loopState 2 ⟨[gRec, badRec], none, []⟩ = .ok ⟨[], some gDefn, [gDefn, gDefn]⟩ ∧
    gDefn.name ≠ badRec.name :=
  ⟨rfl, rfl, by decide⟩

/-- C10: for the two known definition types `pull_definitions` returns one
entry per document of the corresponding collection, in cursor order, with
the `type` key of each entry set to the requested type; for any other type
it raises an unhandled `NameError` (the local `collection` is never
assigned). -/
theorem C10_pull_definitions_shape (db : DB) :
    pull_definitions db "alert" =
      .ok ((db.find ALERTS_COLLECTION).map fun p => { p with rtype := "alert" }) ∧
    pull_definitions db "report" =
      .ok ((db.find REPORTS_COLLECTION).map fun p => { p with rtype := "report" }) ∧
    ∀ t : String, t ≠ "alert" → t ≠ "report" →
      pull_definitions db t = .error .nameError :=
  ⟨pull_definitions_alert db, pull_definitions_report db,
    fun t h1 h2 => pull_definitions_other db t h1 h2⟩

/-- Witness for C10 on the concrete store `mDB` and the unknown type
`"oops"`. -/
theorem C10_pull_definitions_shape_witness :
    pull_definitions mDB "oops" = .error .nameError ∧
    pull_definitions mDB "alert" = .ok [{ mRec with rtype := "alert" }] := by
  refine ⟨(C10_pull_definitions_shape mDB).2.2 "oops" (by decide) (by decide), ?_⟩
  rw [(C10_pull_definitions_shape mDB).1]
  rfl

end AnalysisMgr
